import Mathlib

/-!
Verification of `publish.py`, a tool that prepares a multi-file TeX project for
distribution: it iteratively collects the files a build needs (`_collect`),
strips comments from the `.tex` files of the distribution folder
(`_squash_comments`), extracts missing-file reports from compiler diagnostics
(`_compile`), and compares two rendered PDFs page by page (`_compare`).

The Python source is shallowly embedded below.  External processes (the
`latexmk` build and the `pdftoppm` renderer) are opaque in the source as well;
the build is modelled as an oracle `List RelPath → List RelPath` mapping the
current state of the distribution folder to the Missing-File Report of one
build attempt, and the renderer's output is modelled as a list of page images.
-/

namespace Publish

/-! ## File-system model for the Dependency Collector (`_collect`)

A `RelPath` is a path relative to the source-tree root (equally, relative to
the distribution folder root): a list of directory components plus a final
name.  The Source Tree is a list of `Entry` (explicit files and directories;
`isFile` mirrors Python's `Path.is_file`).  The entries' list order models the
file system's directory enumeration order as seen by `Path.glob`.  The Working
Copy (distribution folder) is modelled as the list of its files outside the
auxiliary directory; `_compile` writes only under the auxiliary directory, and
`shutil.copy` is the only other mutation performed by `_collect`. -/

structure RelPath where
  dir : List String
  name : String
deriving DecidableEq, Repr

structure Entry where
  path : RelPath
  isFile : Bool
deriving DecidableEq, Repr

/-- `src_file.exists()`: some entry (file or directory) sits at this path. -/
def existsAt (tree : List Entry) (p : RelPath) : Bool :=
  tree.any (fun e => e.path == p)

/-- Stat a path in the tree: the entry at this path, if any. -/
def statAt (tree : List Entry) (p : RelPath) : Option Entry :=
  tree.find? (fun e => e.path == p)

/-- `src_file.parent.glob(f"{src_file.name}.*")`: all entries of the same
directory whose name extends the reported name by a dot (the glob star may
match the empty string), in directory enumeration order. -/
def globCands (tree : List Entry) (p : RelPath) : List Entry :=
  tree.filter (fun e =>
    e.path.dir == p.dir && (p.name ++ ".").toList.isPrefixOf e.path.name.toList)

/-- The exceptions `shutil.copy` raises when the source path is no file. -/
inductive CollectErr where
  | fileNotFound (p : RelPath)
  | isADirectory (p : RelPath)
deriving DecidableEq, Repr

/-- `shutil.copy` creates (or overwrites) the destination file; the set of
files of the working copy gains the destination path. -/
def insertFile (dist : List RelPath) (p : RelPath) : List RelPath :=
  if p ∈ dist then dist else dist ++ [p]

/-- The inner `for src_file in src_file.parent.glob(...)` loop of `_collect`:
walk the candidates, rebinding `src_file` to each candidate in turn; skip
candidates that are not files (`continue`, with `src_file` already rebound);
otherwise rebind `dst_file` to the candidate's name and `break` on the first
candidate whose destination does not yet exist.  Returns the final values of
`(src_file, dst_file)`. -/
def globLoop (dist : List RelPath) : List Entry → RelPath → RelPath → RelPath × RelPath
  | [], s, d => (s, d)
  | e :: es, _, d =>
      if e.isFile then
        if (⟨d.dir, e.path.name⟩ : RelPath) ∈ dist then
          globLoop dist es e.path ⟨d.dir, e.path.name⟩
        else
          (e.path, ⟨d.dir, e.path.name⟩)
      else globLoop dist es e.path d

/-- The `for file in missing` body of `_collect`: resolve each reported path
(exact match first, stem search otherwise) and copy it into the working copy;
a copy from a path that does not exist raises `FileNotFoundError`, a copy from
a directory raises `IsADirectoryError`, aborting the stage. -/
def copyMissing (tree : List Entry) : List RelPath → List RelPath → Except CollectErr (List RelPath)
  | dist, [] => .ok dist
  | dist, f :: fs =>
      let sd := if existsAt tree f then (f, f) else globLoop dist (globCands tree f) f f
      match statAt tree sd.1 with
      | some e =>
          if e.isFile then copyMissing tree (insertFile dist sd.2) fs
          else .error (.isADirectory sd.1)
      | none => .error (.fileNotFound sd.1)

/-- The `while True` loop of `_collect`.  `oracle` models one `_compile`
invocation: the Missing-File Report of a build run against the current working
copy.  `runs` is the iteration counter; on success the loop reports it
together with the final working copy.  The structural `fuel` argument bounds
how many build invocations we are willing to unfold; `none` means the loop is
still running after `fuel` invocations (the Python loop itself has no bound). -/
def collectLoop (tree : List Entry) (oracle : List RelPath → List RelPath) :
    Nat → Nat → List RelPath → Option (Except CollectErr (Nat × List RelPath))
  | 0, _, _ => none
  | fuel + 1, runs, dist =>
      let missing := oracle dist
      if missing.isEmpty then some (.ok (runs + 1, dist))
      else
        match copyMissing tree dist missing with
        | .ok dist2 => collectLoop tree oracle fuel (runs + 1) dist2
        | .error e => some (.error e)

/-- A build that, on each failing attempt, reveals exactly one more of the
referenced files: the first file of `refs` not yet present in the working
copy, or a clean report once all are present. -/
def revealOracle (refs : List RelPath) (dist : List RelPath) : List RelPath :=
  (refs.filter (fun p => decide (p ∉ dist))).take 1

theorem existsAt_of_statAt {tree : List Entry} {p : RelPath} {e : Entry}
    (h : statAt tree p = some e) : existsAt tree p = true := by
  have hm := List.mem_of_find?_eq_some h
  have hp := List.find?_some h
  exact List.any_eq_true.mpr ⟨e, hm, hp⟩

theorem statAt_eq_none {tree : List Entry} {p : RelPath}
    (h : existsAt tree p = false) : statAt tree p = none := by
  rw [statAt, List.find?_eq_none]
  intro e he hb
  have hx : existsAt tree p = true := List.any_eq_true.mpr ⟨e, he, hb⟩
  rw [h] at hx
  exact absurd hx (by simp)

theorem collect_reveal_aux (tree : List Entry) (refs : List RelPath) (hnd : refs.Nodup)
    (hfile : ∀ p ∈ refs, statAt tree p = some ⟨p, true⟩) :
    ∀ pending dist runs, refs.filter (fun p => decide (p ∉ dist)) = pending →
      collectLoop tree (revealOracle refs) (pending.length + 1) runs dist
        = some (.ok (runs + pending.length + 1, dist ++ pending)) := by
  intro pending
  induction pending with
  | nil =>
      intro dist runs hf
      have horacle : revealOracle refs dist = [] := by rw [revealOracle, hf]; rfl
      rw [collectLoop, horacle]
      simp
  | cons p ps ih =>
      intro dist runs hf
      have hp_filter : p ∈ refs.filter (fun p => decide (p ∉ dist)) := by
        rw [hf]; exact List.mem_cons_self p ps
      have hp_refs : p ∈ refs := List.mem_of_mem_filter hp_filter
      have hp_dist : p ∉ dist := by
        have := List.of_mem_filter hp_filter
        simpa using this
      have hstat : statAt tree p = some ⟨p, true⟩ := hfile p hp_refs
      have hex : existsAt tree p = true := existsAt_of_statAt hstat
      have hnodup_f : (p :: ps).Nodup := hf ▸ hnd.filter _
      have hpps : p ∉ ps := (List.nodup_cons.mp hnodup_f).1
      -- the report of the next build attempt is exactly [p]
      have horacle : revealOracle refs dist = [p] := by
        rw [revealOracle, hf]; rfl
      -- copying [p] succeeds and appends p to the working copy
      have hcopy : copyMissing tree dist [p] = .ok (dist ++ [p]) := by
        rw [copyMissing]
        simp [hex, hstat, insertFile, hp_dist, copyMissing]
      -- the filter at the grown working copy is the remaining pending list
      have hfilter2 : refs.filter (fun x => decide (x ∉ dist ++ [p])) = ps := by
        have hsplit : refs.filter (fun x => decide (x ∉ dist ++ [p]))
            = (refs.filter (fun x => decide (x ∉ dist))).filter (fun x => decide (x ≠ p)) := by
          rw [List.filter_filter]
          apply List.filter_congr
          intro x _
          rcases Decidable.em (x ∈ dist) with hd | hd <;>
            rcases Decidable.em (x = p) with he | he <;>
              simp [hd, he, List.mem_append]
        rw [hsplit, hf]
        have step1 : List.filter (fun x => decide (x ≠ p)) (p :: ps)
            = List.filter (fun x => decide (x ≠ p)) ps := by
          simp
        rw [step1]
        apply List.filter_eq_self.mpr
        intro a ha
        simp only [decide_eq_true_eq]
        exact fun h => hpps (h ▸ ha)
      rw [collectLoop, horacle]
      simp only [List.isEmpty_cons, Bool.false_eq_true, if_false, hcopy, List.length_cons]
      rw [ih (dist ++ [p]) (runs + 1) hfilter2]
      have e1 : runs + 1 + ps.length + 1 = runs + (ps.length + 1) + 1 := by omega
      have e2 : dist ++ [p] ++ ps = dist ++ p :: ps := by simp
      rw [e1, e2]

/-- C1: for a synthetic Source Tree whose primary document references `N`
distinct initially absent files, revealed one per build failure, the
Dependency Collector stops after exactly `N + 1` build invocations (that is
the iteration count it reports) and the Working Copy ends up holding exactly
the primary document plus those `N` referenced files, with no extra files
outside the Auxiliary Directory (which is the part of the distribution folder
this model does not track, because only the build writes there). -/
theorem c1_collector_converges (tree : List Entry) (primary : RelPath)
    (refs : List RelPath) (hnd : refs.Nodup)
    (hfile : ∀ p ∈ refs, statAt tree p = some ⟨p, true⟩)
    (habsent : ∀ p ∈ refs, p ≠ primary) :
    collectLoop tree (revealOracle refs) (refs.length + 1) 0 [primary]
      = some (.ok (refs.length + 1, primary :: refs)) := by
  have hfilter : refs.filter (fun p => decide (p ∉ [primary])) = refs := by
    apply List.filter_eq_self.mpr
    intro a ha
    simp [habsent a ha]
  have := collect_reveal_aux tree refs hnd hfile refs [primary] 0 hfilter
  simpa using this

def w1tree : List Entry :=
  [⟨⟨["figures"], "a.pdf"⟩, true⟩, ⟨⟨[], "b.tex"⟩, true⟩, ⟨⟨[], "unused.py"⟩, true⟩]

def w1refs : List RelPath := [⟨["figures"], "a.pdf"⟩, ⟨[], "b.tex"⟩]

/-- Witness for C1: a concrete source tree with two referenced files; the
collector finishes after 3 = 2 + 1 build invocations with exactly the primary
document plus the two references in the working copy. -/
theorem c1_witness :
    collectLoop w1tree (revealOracle w1refs) 3 0 [⟨[], "paper.tex"⟩]
      = some (.ok (3, ⟨[], "paper.tex"⟩ :: w1refs)) :=
  c1_collector_converges w1tree ⟨[], "paper.tex"⟩ w1refs (by decide) (by decide) (by decide)

/-- C3: when a build attempt reports a missing file that matches nothing in
the Source Tree — no entry at the exact relative path and no stem candidate
in its directory — `_collect` stops (the `shutil.copy` of the nonexistent
source path raises `FileNotFoundError`, which propagates out of the loop) and
the error names exactly the unresolved path. -/
theorem c3_unresolvable_stops (tree : List Entry) (oracle : List RelPath → List RelPath)
    (fuel runs : Nat) (dist : List RelPath) (f : RelPath) (fs : List RelPath)
    (h1 : oracle dist = f :: fs)
    (h2 : existsAt tree f = false)
    (h3 : globCands tree f = []) :
    collectLoop tree oracle (fuel + 1) runs dist = some (.error (.fileNotFound f)) := by
  have hstat : statAt tree f = none := statAt_eq_none h2
  have hcopy : copyMissing tree dist (f :: fs) = .error (.fileNotFound f) := by
    rw [copyMissing]
    simp [h2, h3, globLoop, hstat]
  rw [collectLoop, h1]
  simp [hcopy]

def w3tree : List Entry := [⟨⟨[], "paper.tex"⟩, true⟩]

/-- Witness for C3: the spec's example — a build reporting `data/missing.csv`
absent from the Source Tree under any name stops the collector with that
exact path in the error. -/
theorem c3_witness :
    collectLoop w3tree (fun _ => [⟨["data"], "missing.csv"⟩]) 1 0 [⟨[], "paper.tex"⟩]
      = some (.error (.fileNotFound ⟨["data"], "missing.csv"⟩)) :=
  c3_unresolvable_stops w3tree (fun _ => [⟨["data"], "missing.csv"⟩]) 0 0
    [⟨[], "paper.tex"⟩] ⟨["data"], "missing.csv"⟩ [] rfl (by decide) (by decide)

theorem statAt_of_mem_nodup {tree : List Entry} {e : Entry}
    (he : e ∈ tree) (hnd : (tree.map Entry.path).Nodup) : statAt tree e.path = some e := by
  induction tree with
  | nil => cases he
  | cons a as ih =>
      rw [List.map_cons, List.nodup_cons] at hnd
      rcases List.mem_cons.mp he with rfl | hmem
      · rw [statAt, List.find?_cons_of_pos]
        simp
      · have hne : a.path ≠ e.path := by
          intro hp
          exact hnd.1 (hp ▸ List.mem_map_of_mem Entry.path hmem)
        rw [statAt, List.find?_cons_of_neg]
        · exact ih hmem hnd.2
        · simp [hne]

/-- C9: a reported missing path with no exact match but a stem-matching file
in the same Source Tree directory is resolved to that file, which `_collect`
copies into the Working Copy at the matching relative path under the matched
file's name; with nothing else missing the loop then finishes. -/
theorem c9_stem_resolution (tree : List Entry) (oracle : List RelPath → List RelPath)
    (fuel runs : Nat) (dist : List RelPath) (f : RelPath) (e : Entry)
    (hnd : (tree.map Entry.path).Nodup)
    (h1 : oracle dist = [f])
    (h2 : existsAt tree f = false)
    (h3 : globCands tree f = [e])
    (h4 : e.isFile = true)
    (h5 : (⟨f.dir, e.path.name⟩ : RelPath) ∉ dist)
    (h6 : oracle (dist ++ [(⟨f.dir, e.path.name⟩ : RelPath)]) = []) :
    collectLoop tree oracle (fuel + 2) runs dist
      = some (.ok (runs + 2, dist ++ [(⟨f.dir, e.path.name⟩ : RelPath)])) := by
  have hmem : e ∈ tree := by
    have : e ∈ globCands tree f := by rw [h3]; exact List.mem_singleton.mpr rfl
    exact List.mem_of_mem_filter this
  have hstat : statAt tree e.path = some e := statAt_of_mem_nodup hmem hnd
  have hglob : globLoop dist (globCands tree f) f f = (e.path, ⟨f.dir, e.path.name⟩) := by
    rw [h3, globLoop]
    simp [h4, h5, globLoop]
  have hcopy : copyMissing tree dist [f] = .ok (dist ++ [(⟨f.dir, e.path.name⟩ : RelPath)]) := by
    rw [copyMissing]
    simp [h2, hglob, hstat, h4, insertFile, h5, copyMissing]
  have hfuel : fuel + 2 = (fuel + 1) + 1 := rfl
  rw [hfuel, collectLoop, h1]
  simp only [List.isEmpty_cons, Bool.false_eq_true, if_false, hcopy]
  rw [collectLoop, h6]
  simp

def w9tree : List Entry := [⟨⟨["figures"], "plot.pdf"⟩, true⟩, ⟨⟨[], "paper.tex"⟩, true⟩]

def w9oracle : List RelPath → List RelPath :=
  fun dist => if dist.length == 1 then [⟨["figures"], "plot"⟩] else []

/-- Witness for C9: the spec's example — the build reports `figures/plot`,
only `figures/plot.pdf` exists, and the collector copies `figures/plot.pdf`
into the working copy. -/
theorem c9_witness :
    collectLoop w9tree w9oracle 2 0 [⟨[], "paper.tex"⟩]
      = some (.ok (2, [⟨[], "paper.tex"⟩, ⟨["figures"], "plot.pdf"⟩])) :=
  c9_stem_resolution w9tree w9oracle 0 0 [⟨[], "paper.tex"⟩] ⟨["figures"], "plot"⟩
    ⟨⟨["figures"], "plot.pdf"⟩, true⟩ (by decide) (by decide) (by decide) (by decide)
    (by decide) (by decide) (by decide)

def c4tree : List Entry := [⟨⟨[], "paper.tex"⟩, true⟩, ⟨⟨[], "extra.tex"⟩, true⟩]

def c4oracle : List RelPath → List RelPath := fun _ => [⟨[], "extra.tex"⟩]

theorem c4_aux : ∀ fuel runs,
    collectLoop c4tree c4oracle fuel runs [⟨[], "paper.tex"⟩, ⟨[], "extra.tex"⟩] = none := by
  intro fuel
  induction fuel with
  | zero => intro _; rfl
  | succ n ih => intro runs; exact ih (runs + 1)

/-- C4 (refuting the claimed bound): the `while True` loop of `_collect` has
no iteration cap and no progress check.  Against a build that keeps reporting
the same resolvable file (`extra.tex`, present in the Source Tree and already
in the Working Copy), the loop never returns: no amount of fuel (allowed
build invocations) makes `collectLoop` produce a result. -/
theorem c4_unbounded_retry : ∀ fuel runs,
    collectLoop c4tree c4oracle fuel runs [⟨[], "paper.tex"⟩] = none := by
  intro fuel runs
  cases fuel with
  | zero => rfl
  | succ n => exact c4_aux n (runs + 1)

/-! ## Visual Comparator model (`_compare`)

A rendered page is a raster image: pixel dimensions plus a flat list of pixel
values.  `PIL.ImageChops.difference` demands operands of equal size and raises
`ValueError("images do not match")` otherwise; on equal sizes it returns the
per-pixel absolute difference.  `Image.getbbox()` is `None` exactly when every
pixel of the difference is zero.  `_compare` prints and returns `False` on the
page-count check or on the first diverging page, and `True` otherwise; the
`Verdict` type carries what those prints report. -/

structure PImage where
  width : Nat
  height : Nat
  px : List Nat
deriving DecidableEq, Repr

def PImage.size (im : PImage) : Nat × Nat := (im.width, im.height)

inductive PilError where
  | imagesDoNotMatch
deriving DecidableEq, Repr

/-- `ImageChops.difference(image_a, image_b)`. -/
def difference (a b : PImage) : Except PilError PImage :=
  if a.size = b.size then
    .ok ⟨a.width, a.height, List.zipWith (fun x y => max x y - min x y) a.px b.px⟩
  else .error .imagesDoNotMatch

/-- `diff.getbbox() is None`: the bounding box of nonzero pixels is empty. -/
def getbboxIsNone (im : PImage) : Bool := im.px.all (fun v => v == 0)

inductive Verdict where
  | equivalent
  | pageCountMismatch (na nb : Nat)
  | pixelDiff (page : Nat)
deriving DecidableEq, Repr

/-- The `for i, (page_a, page_b) in enumerate(zip(a_pages, b_pages))` loop of
`_compare`: the difference image is computed first, then the size equality and
empty-bounding-box test; the first failing pair yields the verdict naming its
index.  `zip` stops at the shorter sequence. -/
def comparePages (i : Nat) : List PImage → List PImage → Except PilError Verdict
  | a :: as, b :: bs =>
      match difference a b with
      | .error err => .error err
      | .ok d =>
          if a.size = b.size ∧ getbboxIsNone d = true then comparePages (i + 1) as bs
          else .ok (.pixelDiff i)
  | _, _ => .ok .equivalent

/-- `_compare` after rendering: given the two ordered page sequences, check
the page counts first, then walk the pages pairwise. -/
def compareModel (ap bp : List PImage) : Except PilError Verdict :=
  if ap.length ≠ bp.length then .ok (.pageCountMismatch ap.length bp.length)
  else comparePages 0 ap bp

/-- C8: unequal page counts produce an immediate verdict reporting both
counts, before any per-page work. -/
theorem c8_page_count_short_circuit (ap bp : List PImage) (h : ap.length ≠ bp.length) :
    compareModel ap bp = .ok (.pageCountMismatch ap.length bp.length) := by
  rw [compareModel, if_pos h]

/-- Witness for C8: 3 pages versus 2 pages yields the verdict citing counts 3
and 2.  The pages are deliberately of mismatched dimensions: had any per-page
comparison been attempted, `difference` would have raised instead of
returning a verdict. -/
theorem c8_witness :
    compareModel [⟨1, 1, [0]⟩, ⟨1, 1, [0]⟩, ⟨1, 1, [0]⟩] [⟨2, 1, [0, 0]⟩, ⟨3, 1, [0, 0, 0]⟩]
      = .ok (.pageCountMismatch 3 2) :=
  c8_page_count_short_circuit
    [⟨1, 1, [0]⟩, ⟨1, 1, [0]⟩, ⟨1, 1, [0]⟩] [⟨2, 1, [0, 0]⟩, ⟨3, 1, [0, 0, 0]⟩] (by decide)

/-- C2 (refuting the claimed order of checks): `_compare` computes
`ImageChops.difference(image_a, image_b)` *before* testing
`image_a.size == image_b.size`.  On two single-page sequences whose pages
have different pixel dimensions (equal page counts, so the count check
passes), the difference call raises `ValueError("images do not match")` — an
uncaught exception, not a diverged verdict naming page 0. -/
theorem c2_size_mismatch_raises :
    compareModel [⟨1, 1, [0]⟩] [⟨2, 1, [0, 0]⟩] = .error .imagesDoNotMatch := by
  rfl

/-! ## Comment Stripper model (`_squash_comments`)

`_squash_comments` rewrites each file's contents via
`re.subn(r"(?<!\\)((?:\\\\)*%).+", r"\1", contents)`.  Because `.` does not
match a newline, no match spans lines; because `.+` runs greedily to the end
of its line, at most one substitution happens per line and the scan resumes
on the next line; and the character before a line start is a newline (or
nothing), so the `(?<!\\)` lookbehind never blocks a match there.  The
substitution therefore factors through the file's lines, each line processed
independently starting unblocked.

`stripLineC prev l` scans one newline-free line position by position, exactly
as the regex engine looks for a leftmost match; `prev` says whether the
preceding character is a backslash (the lookbehind).  A match at a position
needs: the lookbehind clear, the maximal run of `r` backslashes starting here
to be even (the greedy `(?:\\\\)*` must consume the entire run, since it has
to be followed by the `%`), a `%` right after the run, and at least one
further character for `.+`.  The replacement keeps the run and the marker
(group 1) and drops the rest of the line, which ends the line's scan. -/

def bsRun : List Char → Nat
  | [] => 0
  | c :: rest => if c = '\\' then bsRun rest + 1 else 0

def stripLineC (prev : Bool) : List Char → List Char × Nat
  | [] => ([], 0)
  | c :: rest =>
      if prev = false ∧ ((c :: rest).drop (bsRun (c :: rest))).head? = some '%'
          ∧ bsRun (c :: rest) % 2 = 0 ∧ (c :: rest).drop (bsRun (c :: rest) + 1) ≠ [] then
        ((c :: rest).take (bsRun (c :: rest) + 1), 1)
      else
        (c :: (stripLineC (c == '\\') rest).1, (stripLineC (c == '\\') rest).2)

/-- Split file contents at newlines (`str.split("\n")` semantics: one line
per newline-separated segment, empty segments included). -/
def splitLines : List Char → List (List Char)
  | [] => [[]]
  | c :: rest =>
      if c = '\n' then [] :: splitLines rest
      else
        match splitLines rest with
        | l :: ls => (c :: l) :: ls
        | [] => [[c]]

/-- Rejoin lines with newlines; inverse of `splitLines`. -/
def joinLines : List (List Char) → List Char
  | [] => []
  | [l] => l
  | l :: ls => l ++ '\n' :: joinLines ls

/-- `re.subn(...)` over whole file contents: every line stripped
independently; the second component is the number of substitutions, the
count `_squash_comments` accumulates. -/
def squashText (s : List Char) : List Char × Nat :=
  (joinLines ((splitLines s).map (fun l => (stripLineC false l).1)),
   ((splitLines s).map (fun l => (stripLineC false l).2)).sum)

theorem bsRun_cons_bs (l : List Char) : bsRun ('\\' :: l) = bsRun l + 1 := by
  rw [bsRun]; simp

theorem bsRun_cons_ne {c : Char} (l : List Char) (h : c ≠ '\\') : bsRun (c :: l) = 0 := by
  rw [bsRun]; simp [h]

theorem take_bsRun (l : List Char) : l.take (bsRun l) = List.replicate (bsRun l) '\\' := by
  induction l with
  | nil => simp [bsRun]
  | cons c rest ih =>
      by_cases hc : c = '\\'
      · subst hc
        rw [bsRun_cons_bs]
        simp [List.replicate_succ, List.take_succ_cons, ih]
      · rw [bsRun_cons_ne _ hc]
        simp

theorem drop_bsRun_head {l : List Char} {d : Char} {t : List Char}
    (h : l.drop (bsRun l) = d :: t) : d ≠ '\\' := by
  induction l with
  | nil => simp [bsRun] at h
  | cons c rest ih =>
      by_cases hc : c = '\\'
      · subst hc
        rw [bsRun_cons_bs, List.drop_succ_cons] at h
        exact ih h
      · rw [bsRun_cons_ne _ hc, List.drop_zero] at h
        cases h
        exact hc

theorem bsRun_replicate_append {d : Char} (r : Nat) (t : List Char) (hd : d ≠ '\\') :
    bsRun (List.replicate r '\\' ++ d :: t) = r := by
  induction r with
  | zero => simpa using bsRun_cons_ne t hd
  | succ n ih => simp [List.replicate_succ, bsRun_cons_bs, ih]

theorem drop_replicate_append (r : Nat) (c : Char) (t : List Char) :
    (List.replicate r c ++ t).drop r = t := by
  have h := List.drop_left (List.replicate r c) t
  rwa [List.length_replicate] at h

theorem take_replicate_append (r : Nat) (c : Char) (t : List Char) :
    (List.replicate r c ++ t).take r = List.replicate r c := by
  have h := List.take_left (List.replicate r c) t
  rwa [List.length_replicate] at h

theorem take_add_replicate_append (k n : Nat) (c : Char) (t : List Char) :
    (List.replicate k c ++ t).take (k + n) = List.replicate k c ++ t.take n := by
  induction k with
  | zero => simp
  | succ m ih =>
      have harith : m + 1 + n = (m + n) + 1 := by omega
      rw [List.replicate_succ, List.cons_append, harith, List.take_succ_cons, ih,
        List.cons_append]

theorem decomp_of_drop {l : List Char} {d : Char} {t : List Char}
    (h : l.drop (bsRun l) = d :: t) :
    l = List.replicate (bsRun l) '\\' ++ d :: t := by
  conv_lhs => rw [← List.take_append_drop (bsRun l) l]
  rw [take_bsRun, h]

/-- A line consisting entirely of backslashes is left unchanged: the regex
needs a `%` somewhere. -/
theorem stripLineC_run_nil (p : Bool) {l : List Char}
    (hdrop : l.drop (bsRun l) = []) : stripLineC p l = (l, 0) := by
  induction l generalizing p with
  | nil => rfl
  | cons c rest ih =>
      have hc : c = '\\' := by
        by_contra hc
        rw [bsRun_cons_ne _ hc, List.drop_zero] at hdrop
        cases hdrop
      subst hc
      rw [bsRun_cons_bs, List.drop_succ_cons] at hdrop
      rw [stripLineC, if_neg]
      · have hr := ih (p := true) hdrop
        simp only [show (('\\' : Char) == '\\') = true from by simp, hr]
      · intro hcond
        rcases hcond with ⟨_, hhead, _, _⟩
        rw [bsRun_cons_bs, List.drop_succ_cons, hdrop] at hhead
        cases hhead

/-- A leftmost match at the head of the remaining line: lookbehind clear, an
even backslash run, the marker, and at least one trailing character. The
replacement keeps the run and the marker and ends the line. -/
theorem stripLineC_run_match (p : Bool) {l : List Char} {t : List Char}
    (hdrop : l.drop (bsRun l) = '%' :: t) (hp : p = false)
    (hpar : bsRun l % 2 = 0) (hne : t ≠ []) :
    stripLineC p l = (l.take (bsRun l + 1), 1) := by
  cases l with
  | nil => simp [bsRun] at hdrop
  | cons c rest =>
      rw [stripLineC, if_pos]
      refine ⟨hp, ?_, hpar, ?_⟩
      · rw [hdrop]; rfl
      · have hdd : (c :: rest).drop (bsRun (c :: rest) + 1)
            = ((c :: rest).drop (bsRun (c :: rest))).drop 1 := by
          rw [List.drop_drop]
        rw [hdd, hdrop]
        simpa using hne

/-- No match at the head of the remaining line: the scan emits the backslash
run and the following character verbatim (no match can start inside the run
or on a character preceded by a backslash) and continues unblocked after
them. -/
theorem stripLineC_run_else (p : Bool) {l : List Char} {d : Char} {t : List Char}
    (hdrop : l.drop (bsRun l) = d :: t)
    (hneg : ¬(p = false ∧ d = '%' ∧ bsRun l % 2 = 0 ∧ t ≠ [])) :
    stripLineC p l
      = (l.take (bsRun l) ++ d :: (stripLineC false t).1, (stripLineC false t).2) := by
  induction l generalizing p with
  | nil => simp [bsRun] at hdrop
  | cons c rest ih =>
      by_cases hc : c = '\\'
      · subst hc
        rw [bsRun_cons_bs, List.drop_succ_cons] at hdrop
        rw [stripLineC, if_neg]
        · have hr := ih (p := true) hdrop (by simp)
          simp only [show (('\\' : Char) == '\\') = true from by simp, hr,
            bsRun_cons_bs, List.take_succ_cons, List.cons_append]
        · intro hcond
          rcases hcond with ⟨hpf, hhead, hpar, hlast⟩
          rw [bsRun_cons_bs, List.drop_succ_cons, hdrop] at hhead
          rw [bsRun_cons_bs] at hpar
          have hdd : ('\\' :: rest).drop (bsRun ('\\' :: rest) + 1)
              = rest.drop (bsRun rest + 1) := by
            rw [bsRun_cons_bs, List.drop_succ_cons]
          rw [hdd] at hlast
          have hdd2 : rest.drop (bsRun rest + 1) = (rest.drop (bsRun rest)).drop 1 := by
            rw [List.drop_drop]
          rw [hdd2, hdrop] at hlast
          apply hneg
          refine ⟨hpf, by simpa using hhead, by rw [bsRun_cons_bs]; exact hpar, by simpa using hlast⟩
      · rw [bsRun_cons_ne _ hc, List.drop_zero] at hdrop
        cases hdrop
        rw [stripLineC, if_neg]
        · have hb : (d == '\\') = false := by simp [hc]
          rw [hb, bsRun_cons_ne _ hc, List.take_zero, List.nil_append]
        · intro hcond
          rcases hcond with ⟨hpf, hhead, hpar, hlast⟩
          rw [bsRun_cons_ne _ hc, List.drop_zero] at hhead
          simp only [List.head?_cons, Option.some.injEq] at hhead
          have hdd : (d :: t).drop (bsRun (d :: t) + 1) = t := by
            rw [bsRun_cons_ne _ hc, List.drop_succ_cons, List.drop_zero]
          rw [hdd] at hlast
          exact hneg ⟨hpf, hhead, by rw [bsRun_cons_ne _ hc], hlast⟩

/-- The stripped line is empty exactly when the input line is. -/
theorem stripLineC_fst_nil_iff (p : Bool) (l : List Char) :
    (stripLineC p l).1 = [] ↔ l = [] := by
  cases l with
  | nil => simp [stripLineC]
  | cons c rest =>
      rw [stripLineC]
      split
      · rw [List.take_succ_cons]
        simp
      · simp

/-- One pass of the per-line substitution reaches a fixed point: a second
pass neither changes the line nor counts a substitution. -/
theorem stripLineC_fix_aux : ∀ n l, l.length ≤ n →
    stripLineC false (stripLineC false l).1 = ((stripLineC false l).1, 0) := by
  intro n
  induction n with
  | zero =>
      intro l hl
      have hnil : l = [] := List.length_eq_zero.mp (Nat.le_zero.mp hl)
      subst hnil; rfl
  | succ n ih =>
      intro l hl
      cases hdrop : l.drop (bsRun l) with
      | nil =>
          rw [stripLineC_run_nil false hdrop]
          exact stripLineC_run_nil false hdrop
      | cons d t =>
          have hd : d ≠ '\\' := drop_bsRun_head hdrop
          have hdecomp : l = List.replicate (bsRun l) '\\' ++ d :: t := decomp_of_drop hdrop
          have hlen : l.length = bsRun l + t.length + 1 := by
            conv_lhs => rw [hdecomp]
            simp [List.length_append, List.length_replicate]
            omega
          by_cases hcond : d = '%' ∧ bsRun l % 2 = 0 ∧ t ≠ []
          · obtain ⟨hdp, hpar, hne⟩ := hcond
            subst hdp
            rw [stripLineC_run_match false hdrop rfl hpar hne]
            have hout : l.take (bsRun l + 1)
                = List.replicate (bsRun l) '\\' ++ ['%'] := by
              conv_lhs => rw [hdecomp]
              rw [bsRun_replicate_append (bsRun l) t (by decide),
                take_add_replicate_append, List.take_succ_cons, List.take_zero]
            rw [hout]
            have hbs : bsRun (List.replicate (bsRun l) '\\' ++ ['%']) = bsRun l :=
              bsRun_replicate_append (bsRun l) [] (by decide)
            have hdrop2 : (List.replicate (bsRun l) '\\' ++ ['%']).drop
                (bsRun (List.replicate (bsRun l) '\\' ++ ['%'])) = '%' :: [] := by
              rw [hbs]; exact drop_replicate_append (bsRun l) '\\' ['%']
            rw [stripLineC_run_else false hdrop2 (by simp), hbs,
              take_replicate_append]
            rfl
          · have hneg : ¬(false = false ∧ d = '%' ∧ bsRun l % 2 = 0 ∧ t ≠ []) := by
              intro hcon
              exact hcond ⟨hcon.2.1, hcon.2.2.1, hcon.2.2.2⟩
            rw [stripLineC_run_else false hdrop hneg, take_bsRun]
            have hbs : bsRun (List.replicate (bsRun l) '\\' ++ d :: (stripLineC false t).1)
                = bsRun l := bsRun_replicate_append (bsRun l) _ hd
            have hdrop2 : (List.replicate (bsRun l) '\\' ++ d :: (stripLineC false t).1).drop
                (bsRun (List.replicate (bsRun l) '\\' ++ d :: (stripLineC false t).1))
                = d :: (stripLineC false t).1 := by
              rw [hbs]; exact drop_replicate_append (bsRun l) '\\' _
            have hneg2 : ¬(false = false ∧ d = '%'
                ∧ bsRun (List.replicate (bsRun l) '\\' ++ d :: (stripLineC false t).1) % 2 = 0
                ∧ (stripLineC false t).1 ≠ []) := by
              rw [hbs]
              intro hcon
              apply hcond
              refine ⟨hcon.2.1, hcon.2.2.1, ?_⟩
              intro ht
              apply hcon.2.2.2
              rw [(stripLineC_fst_nil_iff false t).mpr ht]
            have hfix : stripLineC false (stripLineC false t).1
                = ((stripLineC false t).1, 0) := ih t (by omega)
            rw [stripLineC_run_else false hdrop2 hneg2, hbs, take_replicate_append, hfix]

theorem stripLineC_fix (l : List Char) :
    stripLineC false (stripLineC false l).1 = ((stripLineC false l).1, 0) :=
  stripLineC_fix_aux l.length l (Nat.le_refl _)

theorem splitLines_ne_nil (s : List Char) : splitLines s ≠ [] := by
  cases s with
  | nil => simp [splitLines]
  | cons c rest =>
      rw [splitLines]
      split
      · simp
      · split <;> simp

theorem splitLines_no_newline (s : List Char) : ∀ l ∈ splitLines s, '\n' ∉ l := by
  induction s with
  | nil =>
      intro l hl
      rw [splitLines, List.mem_singleton] at hl
      simp [hl]
  | cons c rest ih =>
      intro l hl
      rw [splitLines] at hl
      by_cases hc : c = '\n'
      · rw [if_pos hc] at hl
        rcases List.mem_cons.mp hl with rfl | h2
        · simp
        · exact ih l h2
      · rw [if_neg hc] at hl
        cases hsp : splitLines rest with
        | nil => exact absurd hsp (splitLines_ne_nil rest)
        | cons l0 ls =>
            rw [hsp] at hl
            rcases List.mem_cons.mp hl with rfl | h2
            · intro hmem
              rcases List.mem_cons.mp hmem with h3 | h3
              · exact hc h3.symm
              · exact ih l0 (hsp ▸ List.mem_cons_self _ _) h3
            · exact ih l (hsp ▸ List.mem_cons_of_mem _ h2)

theorem splitLines_of_no_newline (l : List Char) (h : '\n' ∉ l) : splitLines l = [l] := by
  induction l with
  | nil => rfl
  | cons c rest ih =>
      have hc : c ≠ '\n' := fun hcc => h (by rw [hcc]; exact List.mem_cons_self _ _)
      rw [splitLines, if_neg hc, ih (fun hm => h (List.mem_cons_of_mem _ hm))]

theorem splitLines_append_newline (l z : List Char) (h : '\n' ∉ l) :
    splitLines (l ++ '\n' :: z) = l :: splitLines z := by
  induction l with
  | nil =>
      rw [List.nil_append, splitLines, if_pos rfl]
  | cons c rest ih =>
      have hc : c ≠ '\n' := fun hcc => h (by rw [hcc]; exact List.mem_cons_self _ _)
      rw [List.cons_append, splitLines, if_neg hc,
        ih (fun hm => h (List.mem_cons_of_mem _ hm))]

theorem joinLines_cons (l : List Char) (ls : List (List Char)) (h : ls ≠ []) :
    joinLines (l :: ls) = l ++ '\n' :: joinLines ls := by
  cases ls with
  | nil => exact absurd rfl h
  | cons a as => rfl

/-- `splitLines` and `joinLines` are mutually inverse decompositions of file
contents into newline-free lines. -/
theorem joinLines_splitLines (s : List Char) : joinLines (splitLines s) = s := by
  induction s with
  | nil => rfl
  | cons c rest ih =>
      rw [splitLines]
      by_cases hc : c = '\n'
      · rw [if_pos hc, joinLines_cons [] _ (splitLines_ne_nil rest), ih, List.nil_append, hc]
      · rw [if_neg hc]
        cases hsp : splitLines rest with
        | nil => exact absurd hsp (splitLines_ne_nil rest)
        | cons l0 ls =>
            rw [hsp] at ih
            cases ls with
            | nil =>
                show joinLines [c :: l0] = c :: rest
                have hl0 : l0 = rest := ih
                rw [← hl0]
                rfl
            | cons l1 ls2 =>
                show joinLines ((c :: l0) :: l1 :: ls2) = c :: rest
                rw [joinLines_cons (c :: l0) _ (by simp), ← ih,
                  joinLines_cons l0 _ (by simp), List.cons_append]

theorem splitLines_joinLines (ls : List (List Char)) (hne : ls ≠ [])
    (h : ∀ l ∈ ls, '\n' ∉ l) : splitLines (joinLines ls) = ls := by
  induction ls with
  | nil => exact absurd rfl hne
  | cons l ls2 ih =>
      cases ls2 with
      | nil => exact splitLines_of_no_newline l (h l (List.mem_cons_self _ _))
      | cons a as =>
          rw [joinLines_cons l (a :: as) (by simp),
            splitLines_append_newline l _ (h l (List.mem_cons_self _ _)),
            ih (by simp) (fun x hx => h x (List.mem_cons_of_mem _ hx))]

theorem stripLineC_subset (p : Bool) (l : List Char) :
    ∀ c ∈ (stripLineC p l).1, c ∈ l := by
  induction l generalizing p with
  | nil => intro c hc; rw [stripLineC] at hc; cases hc
  | cons a rest ih =>
      intro c hc
      rw [stripLineC] at hc
      split at hc
      · exact List.take_subset _ _ hc
      · rcases List.mem_cons.mp hc with rfl | h2
        · exact List.mem_cons_self _ _
        · exact List.mem_cons_of_mem _ (ih (a == '\\') c h2)

theorem squashText_fix (s : List Char) :
    squashText (squashText s).1 = ((squashText s).1, 0) := by
  have hL : ∀ l ∈ (splitLines s).map (fun l => (stripLineC false l).1), '\n' ∉ l := by
    intro l hl
    rcases List.mem_map.mp hl with ⟨l0, hl0, rfl⟩
    intro hmem
    exact splitLines_no_newline s l0 hl0 (stripLineC_subset false l0 '\n' hmem)
  have hne : (splitLines s).map (fun l => (stripLineC false l).1) ≠ [] := by
    simpa using splitLines_ne_nil s
  have hsplit : splitLines (squashText s).1
      = (splitLines s).map (fun l => (stripLineC false l).1) :=
    splitLines_joinLines _ hne hL
  show (joinLines ((splitLines (squashText s).1).map (fun l => (stripLineC false l).1)),
        ((splitLines (squashText s).1).map (fun l => (stripLineC false l).2)).sum)
      = ((squashText s).1, 0)
  rw [hsplit, List.map_map, List.map_map]
  have h1 : (splitLines s).map ((fun l => (stripLineC false l).1)
        ∘ fun l => (stripLineC false l).1)
      = (splitLines s).map (fun l => (stripLineC false l).1) := by
    apply List.map_congr_left
    intro l _
    simp only [Function.comp_apply]
    rw [stripLineC_fix]
  have h2 : ((splitLines s).map ((fun l => (stripLineC false l).2)
        ∘ fun l => (stripLineC false l).1)).sum = 0 := by
    apply List.sum_eq_zero
    intro x hx
    rcases List.mem_map.mp hx with ⟨l, _, rfl⟩
    simp only [Function.comp_apply]
    rw [stripLineC_fix]
  rw [h1, h2]
  rfl

/-- C5: the Comment Stripper is idempotent — applying the comment-stripping
transformation of `_squash_comments` twice to any file contents yields
exactly the same contents as applying it once. -/
theorem c5_squash_idempotent (s : List Char) :
    (squashText (squashText s).1).1 = (squashText s).1 := by
  rw [squashText_fix s]

/-- A stretch of text with no escape character and no marker is copied
verbatim by the per-line substitution. -/
theorem stripLineC_plain (l : List Char) (h : ∀ c ∈ l, c ≠ '\\' ∧ c ≠ '%') :
    stripLineC false l = (l, 0) := by
  induction l with
  | nil => rfl
  | cons c rest ih =>
      have hc := h c (List.mem_cons_self _ _)
      have hdrop : (c :: rest).drop (bsRun (c :: rest)) = c :: rest := by
        rw [bsRun_cons_ne _ hc.1, List.drop_zero]
      have hr := stripLineC_run_else false hdrop (by
        intro hcon
        exact hc.2 hcon.2.1)
      rw [hr, bsRun_cons_ne _ hc.1, List.take_zero, List.nil_append,
        ih (fun x hx => h x (List.mem_cons_of_mem _ hx))]

/-- C6: on a line made of marker-free text `pre`, then `k` consecutive
escape characters, then the comment marker `%`, then nonempty marker-free
text `suf` (the rest of the line), the substitution of `_squash_comments`
treats the marker as active when `k` is even — everything after the marker is
removed while the marker and what precedes it are kept — and as inert when
`k` is odd, stripping nothing. -/
theorem c6_escape_parity (k : Nat) (pre suf : List Char)
    (hpre : ∀ c ∈ pre, c ≠ '\\' ∧ c ≠ '%')
    (hsuf : ∀ c ∈ suf, c ≠ '\\' ∧ c ≠ '%')
    (hne : suf ≠ []) :
    (k % 2 = 0 →
        stripLineC false (pre ++ List.replicate k '\\' ++ '%' :: suf)
          = (pre ++ List.replicate k '\\' ++ ['%'], 1)) ∧
    (k % 2 = 1 →
        stripLineC false (pre ++ List.replicate k '\\' ++ '%' :: suf)
          = (pre ++ List.replicate k '\\' ++ '%' :: suf, 0)) := by
  induction pre with
  | nil =>
      simp only [List.nil_append]
      have hbs : bsRun (List.replicate k '\\' ++ '%' :: suf) = k :=
        bsRun_replicate_append k suf (by decide)
      have hdropk : (List.replicate k '\\' ++ '%' :: suf).drop
          (bsRun (List.replicate k '\\' ++ '%' :: suf)) = '%' :: suf := by
        rw [hbs]; exact drop_replicate_append k '\\' ('%' :: suf)
      constructor
      · intro hk
        rw [stripLineC_run_match false hdropk rfl (by rw [hbs]; exact hk) hne, hbs,
          take_add_replicate_append, List.take_succ_cons, List.take_zero]
      · intro hk
        have hneg : ¬(false = false ∧ ('%' : Char) = '%'
            ∧ bsRun (List.replicate k '\\' ++ '%' :: suf) % 2 = 0 ∧ suf ≠ []) := by
          rw [hbs]
          intro hcon
          omega
        rw [stripLineC_run_else false hdropk hneg, hbs, take_replicate_append,
          stripLineC_plain suf hsuf]
  | cons c pre2 ih =>
      have hc := hpre c (List.mem_cons_self _ _)
      have hih := ih (fun x hx => hpre x (List.mem_cons_of_mem _ hx))
      have hdrop : (c :: (pre2 ++ List.replicate k '\\' ++ '%' :: suf)).drop
          (bsRun (c :: (pre2 ++ List.replicate k '\\' ++ '%' :: suf)))
          = c :: (pre2 ++ List.replicate k '\\' ++ '%' :: suf) := by
        rw [bsRun_cons_ne _ hc.1, List.drop_zero]
      have hr := stripLineC_run_else false hdrop (by
        intro hcon
        exact hc.2 hcon.2.1)
      rw [bsRun_cons_ne _ hc.1, List.take_zero, List.nil_append] at hr
      constructor
      · intro hk
        rw [List.cons_append, List.cons_append, hr, hih.1 hk]
        simp
      · intro hk
        rw [List.cons_append, List.cons_append, hr, hih.2 hk]

/-- Witness for C6, matching the spec's example on the line body `a`:
`\\%a` (even run) is active — the line is stripped to `\\%` with one
substitution — while `\%a` (odd run) is inert and the line is unchanged. -/
theorem c6_witness :
    stripLineC false ([] ++ List.replicate 2 '\\' ++ '%' :: ['a'])
      = ([] ++ List.replicate 2 '\\' ++ ['%'], 1) ∧
    stripLineC false ([] ++ List.replicate 1 '\\' ++ '%' :: ['a'])
      = ([] ++ List.replicate 1 '\\' ++ '%' :: ['a'], 0) :=
  ⟨(c6_escape_parity 2 [] ['a'] (by simp) (by decide) (by decide)).1 rfl,
   (c6_escape_parity 1 [] ['a'] (by simp) (by decide) (by decide)).2 rfl⟩

/-! ## The Strip stage over the Working Copy (file loop of `_squash_comments`)

The Working Copy is now modelled with file contents: a list of
`(path, contents)` entries.  `_squash_comments` globs `**/*.tex` under the
distribution folder and rewrites each matched file in place with the
substitution modelled by `squashText`, accumulating the substitution count. -/

abbrev WorkingCopy := List (RelPath × List Char)

/-- A file matches the `**/*.tex` glob pattern exactly when its name ends in
`.tex` (the glob star may match the empty string). -/
def isTexName (p : RelPath) : Bool := ".tex".toList.isSuffixOf p.name.toList

/-- `dist_dir(paper).glob("**/*.tex")` in enumeration order. -/
def texGlob (wc : WorkingCopy) : List RelPath :=
  (wc.filter (fun e => isTexName e.1)).map Prod.fst

/-- `file.read_text()`. -/
def readF (wc : WorkingCopy) (p : RelPath) : List Char :=
  ((wc.find? (fun e => e.1 == p)).map Prod.snd).getD []

/-- `file.write_text(contents)`. -/
def writeF (wc : WorkingCopy) (p : RelPath) (c : List Char) : WorkingCopy :=
  wc.map (fun e => if e.1 == p then (e.1, c) else e)

/-- The per-file body of the loop in `_squash_comments`: read the file, apply
the substitution, write the result back, add the substitution count. -/
def squashStep (wc : WorkingCopy) (tot : Nat) (p : RelPath) : WorkingCopy × Nat :=
  (writeF wc p (squashText (readF wc p)).1, tot + (squashText (readF wc p)).2)

/-- `_squash_comments` over the working copy: fold the per-file body over the
globbed `.tex` files. -/
def squashStage (wc : WorkingCopy) : WorkingCopy × Nat :=
  (texGlob wc).foldl (fun a p => squashStep a.1 a.2 p) (wc, 0)

theorem squash_frame_aux : ∀ (ps : List RelPath) (acc : WorkingCopy × Nat)
    (i : Nat) (e : RelPath × List Char),
    (∀ p ∈ ps, isTexName p = true) → acc.1[i]? = some e → isTexName e.1 = false →
    ((ps.foldl (fun a p => squashStep a.1 a.2 p) acc).1)[i]? = some e := by
  intro ps
  induction ps with
  | nil => intro acc i e _ hi _; exact hi
  | cons p ps2 ih =>
      intro acc i e hall hi hx
      rw [List.foldl_cons]
      apply ih (squashStep acc.1 acc.2 p) i e
        (fun q hq => hall q (List.mem_cons_of_mem _ hq)) ?_ hx
      have hne : (e.1 == p) = false := by
        have hp := hall p (List.mem_cons_self _ _)
        apply beq_eq_false_iff_ne.mpr
        intro hep
        rw [hep, hp] at hx
        cases hx
      show (writeF acc.1 p (squashText (readF acc.1 p)).1)[i]? = some e
      rw [writeF, List.getElem?_map, hi, Option.map_some']
      rw [if_neg (by simp [hne])]

/-- C10: the Strip stage rewrites only the files of the Working Copy whose
name ends in `.tex`; every other entry is left byte-for-byte unchanged. -/
theorem c10_strip_frame (wc : WorkingCopy) (i : Nat) (e : RelPath × List Char)
    (hi : wc[i]? = some e) (hx : isTexName e.1 = false) :
    ((squashStage wc).1)[i]? = some e := by
  apply squash_frame_aux (texGlob wc) (wc, 0) i e ?_ hi hx
  intro p hp
  rcases List.mem_map.mp hp with ⟨e2, he2, rfl⟩
  exact (List.mem_filter.mp he2).2

def w10wc : WorkingCopy :=
  [(⟨[], "paper.tex"⟩, '%' :: " hi".toList), (⟨["figures"], "plot.pdf"⟩, "PDF".toList)]

/-- Witness for C10: the non-`.tex` entry `figures/plot.pdf` of a concrete
working copy survives the Strip stage byte-for-byte. -/
theorem c10_witness :
    ((squashStage w10wc).1)[1]? = some (⟨["figures"], "plot.pdf"⟩, "PDF".toList) :=
  c10_strip_frame w10wc 1 (⟨["figures"], "plot.pdf"⟩, "PDF".toList) (by decide) (by decide)

/-! ## Missing-file extraction of the Build Invoker (`_compile`)

`_compile` concatenates the captured stdout and stderr, removes every newline
(paths may be wrapped across lines), runs `re.findall` with three patterns,
and returns `sorted(set(...))`.  The patterns are embedded as direct
scanners: each literal piece is matched verbatim, the lazy group `(.+?)`
captures the least positive number of characters up to its terminator, the
scan looks for the leftmost match and resumes after a match (non-overlapping
occurrences), and the strings are compared by code points as Python's
`sorted` does. -/

def quoteCh : Char := Char.ofNat 39

def backtickCh : Char := Char.ofNat 96

/-- The lazy group `(.+?)` followed by a terminator: the capture takes the
least positive number of characters after which the terminator matches.
Returns the capture and the total number of characters consumed, capture and
terminator together.  (`.` cannot match a newline, but the scanned text has
had all newlines removed before matching.) -/
def lazyCapAux (term : List Char → Option Nat) : List Char → Option (List Char × Nat)
  | [] => none
  | c :: rest =>
      match term rest with
      | some k => some ([c], 1 + k)
      | none =>
          match lazyCapAux term rest with
          | some (cap, n) => some (c :: cap, n + 1)
          | none => none

/-- The terminator `' ?not ?found` of the file-not-found pattern: a quote, an
optional space, `not`, an optional space, `found`.  Each optional space is
consumed exactly when present (`not` cannot start with a space), so the
terminator is equivalent to four mutually prefix-incompatible literals. -/
def notFoundLits : List (List Char) :=
  [quoteCh :: "not found".toList, quoteCh :: "notfound".toList,
   quoteCh :: " not found".toList, quoteCh :: " notfound".toList]

def termNotFound (s : List Char) : Option Nat :=
  match notFoundLits.find? (fun lit => lit.isPrefixOf s) with
  | some lit => some lit.length
  | none => none

/-- The closing-quote terminator of the other two patterns. -/
def termQuote (s : List Char) : Option Nat :=
  match s with
  | c :: _ => if c = quoteCh then some 1 else none
  | [] => none

/-- The alternation prefix of ``LaTeX (?:Error|Warning): File `(.+?)' ?not ?found``
(the two branches are prefix-incompatible). -/
def latexFileLits : List (List Char) :=
  ["LaTeX Error: File ".toList ++ [backtickCh],
   "LaTeX Warning: File ".toList ++ [backtickCh]]

def tryFileNotFound (s : List Char) : Option (List Char × Nat) :=
  match latexFileLits.find? (fun lit => lit.isPrefixOf s) with
  | some lit =>
      match lazyCapAux termNotFound (s.drop lit.length) with
      | some (cap, n) => some (cap, lit.length + n)
      | none => none
  | none => none

def bibLit : List Char := "Failed to find one or more bibliography files:".toList

/-- Python's `\s`. -/
def isSpaceCh (c : Char) : Bool :=
  c = ' ' || c = '\t' || c = '\n' || c = '\r' || c = Char.ofNat 11 || c = Char.ofNat 12

/-- `Failed to find one or more bibliography files:\s*'(.+?)'`.  The greedy
`\s*` must consume the entire whitespace run, since the quote that has to
follow is not whitespace. -/
def tryBib (s : List Char) : Option (List Char × Nat) :=
  if bibLit.isPrefixOf s then
    match (s.drop bibLit.length).dropWhile isSpaceCh with
    | c :: s2 =>
        if c = quoteCh then
          match lazyCapAux termQuote s2 with
          | some (cap, n) =>
              some (cap,
                bibLit.length + ((s.drop bibLit.length).takeWhile isSpaceCh).length + 1 + n)
          | none => none
        else none
    | [] => none
  else none

def missingInputLit : List Char := "Missing input file: ".toList ++ [quoteCh]

/-- ``Missing input file: '`?(.+?)'``: the optional backtick is greedy but
backtracks to the empty alternative when no capture-and-quote follows it. -/
def tryMissingInput (s : List Char) : Option (List Char × Nat) :=
  if missingInputLit.isPrefixOf s then
    match s.drop missingInputLit.length with
    | c :: s2 =>
        if c = backtickCh then
          match lazyCapAux termQuote s2 with
          | some (cap, n) => some (cap, missingInputLit.length + 1 + n)
          | none =>
              match lazyCapAux termQuote (c :: s2) with
              | some (cap, n) => some (cap, missingInputLit.length + n)
              | none => none
        else
          match lazyCapAux termQuote (c :: s2) with
          | some (cap, n) => some (cap, missingInputLit.length + n)
          | none => none
    | [] => none
  else none

/-- `re.findall`: at each position try the pattern; on a match emit the
captured group and resume after the whole match (matches do not overlap),
otherwise advance one character.  Every pattern here consumes at least one
character on a match, so `max n 1 = n`; the `max` only serves the
termination argument. -/
def scanFind (tm : List Char → Option (List Char × Nat)) : List Char → List (List Char)
  | [] => []
  | c :: tail =>
      match tm (c :: tail) with
      | some (cap, n) => cap :: scanFind tm ((c :: tail).drop (max n 1))
      | none => scanFind tm tail
termination_by s => s.length
decreasing_by
  · rw [List.length_drop]
    have h1 : 1 ≤ max n 1 := Nat.le_max_right n 1
    simp only [List.length_cons]
    omega
  · simp only [List.length_cons]
    omega

/-- All matches of the three missing-file diagnostics over the newline-free
combined compiler output, concatenated in the order of the code. -/
def allMatches (text : List Char) : List (List Char) :=
  scanFind tryFileNotFound text ++ scanFind tryBib text ++ scanFind tryMissingInput text

/-- Python string `<=`: lexicographic comparison of code points. -/
def lexLe : List Char → List Char → Bool
  | [], _ => true
  | _ :: _, [] => false
  | a :: as, b :: bs => if a.toNat = b.toNat then lexLe as bs else decide (a.toNat < b.toNat)

def insertLe (x : List Char) : List (List Char) → List (List Char)
  | [] => [x]
  | y :: ys => if lexLe x y then x :: y :: ys else y :: insertLe x ys

def sortLe : List (List Char) → List (List Char)
  | [] => []
  | x :: xs => insertLe x (sortLe xs)

/-- `sorted(set(findall1 + findall2 + findall3))` over the newline-stripped
concatenation of the captured stdout and stderr — the Missing-File Report
returned by `_compile`. -/
def missingFiles (out err : List Char) : List (List Char) :=
  sortLe (List.dedup (allMatches ((out ++ err).filter (fun c => !(c == '\n')))))

theorem lexLe_total : ∀ a b : List Char, lexLe a b = true ∨ lexLe b a = true := by
  intro a
  induction a with
  | nil => intro b; left; rfl
  | cons x as ih =>
      intro b
      cases b with
      | nil => right; rfl
      | cons y bs =>
          rw [lexLe, lexLe]
          by_cases hxy : x.toNat = y.toNat
          · rw [if_pos hxy, if_pos hxy.symm]
            exact ih bs
          · rw [if_neg hxy, if_neg (fun h => hxy h.symm)]
            rcases Nat.lt_or_ge x.toNat y.toNat with h | h
            · left; simpa using h
            · right
              simp only [decide_eq_true_eq]
              omega

theorem lexLe_trans : ∀ a b c : List Char,
    lexLe a b = true → lexLe b c = true → lexLe a c = true := by
  intro a
  induction a with
  | nil => intro b c _ _; rfl
  | cons x as ih =>
      intro b c hab hbc
      cases b with
      | nil => exact absurd hab (by rw [lexLe]; simp)
      | cons y bs =>
          cases c with
          | nil => exact absurd hbc (by rw [lexLe]; simp)
          | cons z cs =>
              rw [lexLe] at hab hbc ⊢
              by_cases hxy : x.toNat = y.toNat
              · by_cases hyz : y.toNat = z.toNat
                · rw [if_pos hxy] at hab
                  rw [if_pos hyz] at hbc
                  rw [if_pos (hxy.trans hyz)]
                  exact ih bs cs hab hbc
                · rw [if_pos hxy] at hab
                  rw [if_neg hyz] at hbc
                  have hyz2 : y.toNat < z.toNat := by simpa using hbc
                  rw [if_neg (by omega)]
                  simp only [decide_eq_true_eq]
                  omega
              · by_cases hyz : y.toNat = z.toNat
                · rw [if_neg hxy] at hab
                  have hxy2 : x.toNat < y.toNat := by simpa using hab
                  rw [if_neg (by omega)]
                  simp only [decide_eq_true_eq]
                  omega
                · rw [if_neg hxy] at hab
                  rw [if_neg hyz] at hbc
                  have hxy2 : x.toNat < y.toNat := by simpa using hab
                  have hyz2 : y.toNat < z.toNat := by simpa using hbc
                  rw [if_neg (by omega)]
                  simp only [decide_eq_true_eq]
                  omega

theorem perm_insertLe (x : List Char) (l : List (List Char)) :
    List.Perm (insertLe x l) (x :: l) := by
  induction l with
  | nil => exact List.Perm.refl _
  | cons y ys ih =>
      rw [insertLe]
      split
      · exact List.Perm.refl _
      · exact (ih.cons y).trans (List.Perm.swap x y ys)

theorem perm_sortLe (l : List (List Char)) : List.Perm (sortLe l) l := by
  induction l with
  | nil => exact List.Perm.refl _
  | cons x xs ih => exact (perm_insertLe x (sortLe xs)).trans (ih.cons x)

theorem pairwise_insertLe {x : List Char} {l : List (List Char)}
    (hl : l.Pairwise (fun a b => lexLe a b = true)) :
    (insertLe x l).Pairwise (fun a b => lexLe a b = true) := by
  induction l with
  | nil => simp [insertLe]
  | cons y ys ih =>
      rw [insertLe]
      rcases List.pairwise_cons.mp hl with ⟨hy, hys⟩
      split
      · rename_i hxy
        refine List.pairwise_cons.mpr ⟨?_, hl⟩
        intro b hb
        rcases List.mem_cons.mp hb with rfl | hbys
        · exact hxy
        · exact lexLe_trans x y b hxy (hy b hbys)
      · rename_i hxy
        have hyx : lexLe y x = true := by
          rcases lexLe_total x y with h | h
          · exact absurd h hxy
          · exact h
        refine List.pairwise_cons.mpr ⟨?_, ih hys⟩
        intro b hb
        have hb2 : b = x ∨ b ∈ ys := by
          have := (perm_insertLe x ys).mem_iff.mp hb
          simpa using this
        rcases hb2 with rfl | hbys
        · exact hyx
        · exact hy b hbys

theorem sorted_sortLe (l : List (List Char)) :
    (sortLe l).Pairwise (fun a b => lexLe a b = true) := by
  induction l with
  | nil => simp [sortLe]
  | cons x xs ih => exact pairwise_insertLe ih

/-- C7: `_compile`'s missing-file extraction works on the concatenation of
the captured stdout and stderr with every newline removed, collects exactly
the filenames captured by the three diagnostic patterns (file not found,
missing input file, missing bibliography files), and returns them
deduplicated and sorted lexicographically — a pure function of the captured
texts, hence deterministic across runs. -/
theorem c7_missing_extraction (out err : List Char) :
    (∀ s, s ∈ missingFiles out err
        ↔ s ∈ allMatches ((out ++ err).filter (fun c => !(c == '\n'))))
    ∧ (missingFiles out err).Pairwise (fun a b => lexLe a b = true)
    ∧ (missingFiles out err).Nodup := by
  refine ⟨?_, ?_, ?_⟩
  · intro s
    rw [missingFiles, (perm_sortLe _).mem_iff, List.mem_dedup]
  · exact sorted_sortLe _
  · exact ((perm_sortLe _).nodup_iff).mpr (List.nodup_dedup _)

end Publish
